import Mathlib

/-!
Verification of the Simple-Diffusion-Model repository: the DDIM noise
scheduler, the EMA weight tracker and the two entry points
(`train.py` and `generate.py`).

Tensors are modelled as lists of real numbers (batches as lists of
lists), float arithmetic as exact real arithmetic, and python ints as
`Nat`/`Int`.  The `simple_diffusion` package (`scheduler.py`,
`ema.py`) is not part of the repository snapshot — only its callers
are — so those operations are modelled from the specification, as
stated in the doc comment of each such definition.  Everything taken
from `train.py` / `generate.py` follows those files directly.
-/

/-- The two beta-schedule families named by the spec for
`DDIMScheduler(num_train_timesteps, beta_schedule)`
(`beta_schedule` is `"linear"` or `"cosine"`). -/
inductive BetaFamily where
  | linear : BetaFamily
  | cosine : BetaFamily
deriving DecidableEq

/-- Modelled from the spec: the linear branch of `BetaSchedule.build`
(`scheduler.py` is absent from the snapshot).  `beta_t` is linearly
interpolated between `1e-4` and `2e-2` across `t = 0 .. T-1` (§4.1).
Rational arithmetic stands in for the float computation.  For `T = 1`
the denominator is zero and rational division by zero yields `0`, so
`beta_0 = 1e-4`. -/
def betaLinear (T t : ℕ) : ℚ :=
  1 / 10000 + (2 / 100 - 1 / 10000) * (t : ℚ) / ((T : ℚ) - 1)

/-- Modelled from the spec (§3 data model): `alpha_bar_t` is the
cumulative product `∏ s ≤ t, (1 - beta_s)` of the linear schedule. -/
def alphaBarLinear (T t : ℕ) : ℚ :=
  ∏ s ∈ Finset.range (t + 1), (1 - betaLinear T s)

/-- Modelled from the spec: the cosine-schedule angle at timestep `t`,
`((t/T + s) / (1 + s)) * (π/2)` with offset `s = 0.008` (§4.1 derives
`alpha_bar` "directly from a cosine-shaped function of `t/T`"; the
exact constants are left open by §9, this is the standard choice). -/
noncomputable def cosArg (T t : ℕ) : ℝ :=
  (((t : ℝ) / (T : ℝ) + 8 / 1000) / (1 + 8 / 1000)) * (Real.pi / 2)

/-- Modelled from the spec: the squared-cosine profile `f(t)` of the
cosine schedule. -/
noncomputable def cosF (T t : ℕ) : ℝ := Real.cos (cosArg T t) ^ 2

/-- Modelled from the spec: `alpha_bar_t = f(t) / f(0)` for the cosine
family (§4.1). -/
noncomputable def alphaBarCosine (T t : ℕ) : ℝ := cosF T t / cosF T 0

/-- Modelled from the spec: the `alpha_bar` sequence produced at
scheduler construction, per family. -/
noncomputable def alphaBar (fam : BetaFamily) (T t : ℕ) : ℝ :=
  match fam with
  | BetaFamily.linear => ((alphaBarLinear T t : ℚ) : ℝ)
  | BetaFamily.cosine => alphaBarCosine T t

/-- The scheduler configuration built by `DDIMScheduler(num_train_timesteps,
beta_schedule)`: the immutable data both entry points construct. -/
structure SchedulerConfig where
  numTrainTimesteps : ℕ
  betaSchedule : BetaFamily
deriving DecidableEq

/-- From `train.py` line 31: `n_timesteps = 1024`. -/
def trainNTimesteps : ℕ := 1024

/-- From `train.py` line 32: `n_inference_timesteps = 256`. -/
def trainNInferenceTimesteps : ℕ := 256

/-- From `generate.py` line 14: `n_timesteps = 1000`. -/
def genNTimesteps : ℕ := 1000

/-- From `generate.py` line 15: `n_inference_timesteps = 20`. -/
def genNInferenceTimesteps : ℕ := 20

/-- The scheduler `train.py` builds:
`DDIMScheduler(num_train_timesteps=n_timesteps, beta_schedule="cosine")`. -/
def trainSchedulerConfig : SchedulerConfig :=
  { numTrainTimesteps := trainNTimesteps, betaSchedule := BetaFamily.cosine }

/-- The scheduler `generate.py` builds:
`DDIMScheduler(num_train_timesteps=n_timesteps, beta_schedule="cosine")`. -/
def genSchedulerConfig : SchedulerConfig :=
  { numTrainTimesteps := genNTimesteps, betaSchedule := BetaFamily.cosine }

/-- Modelled from the spec: one element of the forward corruption
`x_t = sqrt(alpha_bar_t) * x0 + sqrt(1 - alpha_bar_t) * noise` (§4.2),
with `ab` the value of `alpha_bar` at the element's timestep. -/
noncomputable def addNoiseElt (ab x n : ℝ) : ℝ :=
  Real.sqrt ab * x + Real.sqrt (1 - ab) * n

/-- One image corrupted at a single timestep coefficient `ab`,
elementwise over the flattened pixels. -/
noncomputable def addNoiseImg (ab : ℝ) (x0 noise : List ℝ) : List ℝ :=
  List.zipWith (addNoiseElt ab) x0 noise

/-- Modelled from the spec: `DDIMScheduler.add_noise(x0, noise, t)`
(`scheduler.py` is absent from the snapshot; `train.py` lines 131–137
call it with one integer timestep per batch element).  The batch is a
list of flattened images; each image is corrupted with the `alpha_bar`
value of its own timestep. -/
noncomputable def add_noise (ab : ℕ → ℝ) :
    List (List ℝ) → List (List ℝ) → List ℕ → List (List ℝ)
  | x :: xs, n :: ns, t :: ts => addNoiseImg (ab t) x n :: add_noise ab xs ns ts
  | _, _, _ => []

/-- Modelled from the spec: the initial EMA decay coefficient; the shadow
tracker is built as `EMA(model, gamma, total_num_steps)`. -/
def defaultGamma : ℚ := 996 / 1000

/-- Modelled from the spec: `EMA.update_gamma(step)` (`ema.py` is absent
from the snapshot).  §4.4 requires a closed-form function of
`step / total_steps`, increasing from `gamma0` toward an asymptotic
ceiling below 1, with `gamma(0) = gamma0`; §9 leaves the exact closed
form open.  We use `1 - (1 - gamma0) * total / (total + step)`, which
is such a function of `step / total`. -/
def update_gamma (gamma0 : ℚ) (total : ℕ) (step : ℕ) : ℚ :=
  1 - (1 - gamma0) * (total : ℚ) / ((total : ℚ) + (step : ℚ))

/-- Modelled from the spec: `EMA.update_params(gamma)` (`ema.py` is
absent from the snapshot): for every parameter pair,
`shadow_p ← gamma * shadow_p + (1 - gamma) * live_p`, elementwise
(§4.4).  Parameter sets are flat lists of scalars (§9). -/
def update_params (gamma : ℚ) (shadow live : List ℚ) : List ℚ :=
  List.zipWith (fun s l => gamma * s + (1 - gamma) * l) shadow live

/-- The EMA-related state of the training loop of `train.py` at the start
of iteration `n`: the current `gamma` variable and `global_step`.
`gamma` starts as `args.gamma` (line 107) and `global_step` as `0`
(line 121); each iteration runs `ema.update_params(gamma)` (line 148),
then `gamma = ema.update_gamma(global_step)` (line 149), then
`global_step += 1` (line 167).  `g` abstracts `ema.update_gamma`. -/
def trainLoopState (g : ℕ → ℚ) (gamma0 : ℚ) : ℕ → ℚ × ℕ
  | 0 => (gamma0, 0)
  | n + 1 => (g (trainLoopState g gamma0 n).2, (trainLoopState g gamma0 n).2 + 1)

/-- The decay coefficient `train.py` passes to `ema.update_params` during
the iteration whose `global_step` is `n`. -/
def gammaPassed (g : ℕ → ℚ) (gamma0 : ℚ) (n : ℕ) : ℚ :=
  (trainLoopState g gamma0 n).1

/-- Modelled from the spec: one element of the DDIM reverse update
(§4.3 step 3) specialized to `eta = 0`, where `sigma_i = 0` and the
fresh-noise term is omitted: recover
`x0_pred = (x - sqrt(1 - alpha_bar_{tc}) * eps) / sqrt(alpha_bar_{tc})`
and move to
`sqrt(alpha_bar_{tp}) * x0_pred + sqrt(1 - alpha_bar_{tp}) * eps`. -/
noncomputable def ddimStepE (ab : ℕ → ℝ) (tc tp : ℕ) (x eps : ℝ) : ℝ :=
  Real.sqrt (ab tp) * ((x - Real.sqrt (1 - ab tc) * eps) / Real.sqrt (ab tc)) +
    Real.sqrt (1 - ab tp) * eps

/-- Modelled from the spec: the strictly decreasing inference timestep
sequence `τ_0 > τ_1 > ... > τ_{S-1} = 0`, evenly spaced with stride
`T / S` (§4.3 step 1). -/
def genSteps (T S : ℕ) : List ℕ :=
  (List.range S).map (fun i => (T / S) * (S - 1 - i))

/-- The consecutive pairs `(τ_i, τ_{i+1})` walked by the sampler. -/
def stepPairs (l : List ℕ) : List (ℕ × ℕ) := l.zip l.tail

/-- Modelled from the spec: the single-pass DDIM denoising loop at
`eta = 0` over one image.  `pred` is the external predictor
`predict_noise(x_t, t)`; at each pair `(τ_c, τ_p)` the image is
updated elementwise by `ddimStepE`. -/
noncomputable def genLoop (ab : ℕ → ℝ) (pred : List ℝ → ℕ → List ℝ) :
    List (ℕ × ℕ) → List ℝ → List ℝ
  | [], x => x
  | (tc, tp) :: rest, x =>
      genLoop ab pred rest (List.zipWith (ddimStepE ab tc tp) x (pred x tc))

/-- Modelled from the spec: terminal normalization of `generate`'s final
batch — clamp to `[-1, 1]`, then rescale to `[0, 1]` floats.  The
output range is fixed by the caller `generate.py` line 42, which
itself performs the `*255` integer conversion, and line 51, which
feeds the other copy to `save_image` as floats. -/
noncomputable def normalizeOut (v : ℝ) : ℝ := max (-1) (min 1 v) / 2 + 1 / 2

/-- The pair of arrays a `generate` call returns: `sample` (numpy,
per-image float buffers) and `sample_pt` (torch tensor for grid
assembly); `generate.py` reads `generated_images["sample"]` and
`generated_images["sample_pt"]`. -/
structure GenOutput where
  sample : List ℝ
  samplePt : List ℝ

/-- Modelled from the spec: the terminal step of `generate` — both
returned arrays carry the same normalized float values. -/
noncomputable def mkGenOutput (finalx : List ℝ) : GenOutput :=
  { sample := finalx.map normalizeOut, samplePt := finalx.map normalizeOut }

/-- From `generate.py` line 42: `images_processed = (images * 255).round()
.astype("uint8")` — the caller, not `generate`, rescales the sample to
the `[0, 255]` integer range. -/
noncomputable def images_processed (sample : List ℝ) : List ℤ :=
  sample.map (fun v => round (v * 255))

/-- A seeded random generator: seed plus the number of draws already
consumed. -/
structure GenState where
  seed : ℕ
  counter : ℕ
deriving DecidableEq

/-- Modelled from the spec: generator construction is a pure function of
the seed (§9); a fresh instance has consumed nothing. -/
def mkGenerator (seed : ℕ) : GenState := { seed := seed, counter := 0 }

/-- The noise values drawn from a generator: `nu` maps (seed, draw index)
to the value of that draw, abstracting the underlying normal source. -/
def initNoise (nu : ℕ → ℕ → ℝ) (g : GenState) (n : ℕ) : List ℝ :=
  (List.range n).map (fun i => nu g.seed (g.counter + i))

/-- Modelled from the spec: `DDIMScheduler.generate(predictor,
num_inference_steps, seed, eta, ...)` at `eta = 0` for one image of
`n` elements (`scheduler.py` is absent from the snapshot).  `prior`
is the ambient generator state left by any random draws made before
the call; per §5, the call constructs its own fresh generator
`mkGenerator seed` and never touches `prior`. -/
noncomputable def generate (ab : ℕ → ℝ) (nu : ℕ → ℕ → ℝ)
    (pred : List ℝ → ℕ → List ℝ) (T S n seed : ℕ) (prior : GenState) :
    GenOutput :=
  mkGenOutput (genLoop ab pred (stepPairs (genSteps T S))
    (initNoise nu (mkGenerator seed) n))

/-- The error taxonomy of §7. -/
inductive DiffusionError where
  | configurationError : DiffusionError
  | stateError : DiffusionError
deriving DecidableEq

/-- Parsing of the `beta_schedule` string argument. -/
def parseBetaFamily (s : String) : Option BetaFamily :=
  if s = "linear" then some BetaFamily.linear
  else if s = "cosine" then some BetaFamily.cosine
  else none

/-- Modelled from the spec: checked construction of `DDIMScheduler`
(§4.1, §7): `T ≤ 0` or an invalid family name raises
`ConfigurationError` at construction time. -/
def mkDDIMScheduler (T : ℤ) (betaScheduleStr : String) :
    Except DiffusionError SchedulerConfig :=
  if T ≤ 0 then Except.error DiffusionError.configurationError
  else
    match parseBetaFamily betaScheduleStr with
    | some fam => Except.ok { numTrainTimesteps := T.toNat, betaSchedule := fam }
    | none => Except.error DiffusionError.configurationError

/-- Modelled from the spec: the call-time check of `generate` (§4.3, §7):
`num_inference_steps > num_train_timesteps` raises
`ConfigurationError`; otherwise the inference timestep sequence is
produced. -/
def checkInference (cfg : SchedulerConfig) (S : ℕ) :
    Except DiffusionError (List ℕ) :=
  if cfg.numTrainTimesteps < S then Except.error DiffusionError.configurationError
  else Except.ok (genSteps cfg.numTrainTimesteps S)

/-- The idealized identity predictor of the round-trip scenario (§8):
`predict_noise` returns the exact noise that was injected. -/
def identityPredictor (eps : List ℝ) : List ℝ → ℕ → List ℝ := fun _ _ => eps

/-- Predicate `chainOK t0 l` holds when the step-pair list `l` walks consecutively
from timestep `t0`: each pair starts where the previous one ended. -/
def chainOK : ℕ → List (ℕ × ℕ) → Bool
  | _, [] => true
  | t0, (tc, tp) :: rest => tc = t0 && chainOK tp rest

/-- The timestep at which a consecutive step-pair list ends. -/
def chainEnd : ℕ → List (ℕ × ℕ) → ℕ
  | t0, [] => t0
  | _, (_, tp) :: rest => chainEnd tp rest

/-!  ## Theorems  -/

/-- The `global_step` component of the loop state is the iteration count. -/
theorem trainLoopState_snd (g : ℕ → ℚ) (gamma0 : ℚ) (n : ℕ) :
    (trainLoopState g gamma0 n).2 = n := by
  induction n with
  | zero => rfl
  | succ n ih => simp [trainLoopState, ih]

/-- C9: the two entry points never construct the same diffusion schedule:
every run of `train.py` builds `DDIMScheduler` with
`num_train_timesteps = 1024` and samples with 256 inference steps,
while every run of `generate.py` builds it with
`num_train_timesteps = 1000` and samples with 20 inference steps, so a
checkpoint trained by `train.py` is sampled by `generate.py` under a
different (shorter) schedule. -/
theorem train_generate_schedules_differ :
    trainSchedulerConfig.numTrainTimesteps = 1024 ∧
    genSchedulerConfig.numTrainTimesteps = 1000 ∧
    trainNInferenceTimesteps = 256 ∧
    genNInferenceTimesteps = 20 ∧
    trainSchedulerConfig ≠ genSchedulerConfig ∧
    genSchedulerConfig.numTrainTimesteps < trainSchedulerConfig.numTrainTimesteps := by
  refine ⟨rfl, rfl, rfl, rfl, by decide, by decide⟩

/-- C10: in `train.py`'s loop the coefficient passed to
`ema.update_params` at global step `n ≥ 1` is `update_gamma (n-1)`
(here `g (n-1)` for the abstract `update_gamma` function `g`), while at
step `0` it is the initial command-line gamma (default `0.996`):
`update_gamma` is evaluated only after `update_params` within each
iteration, so the step-indexed gamma is applied with a one-step lag. -/
theorem gammaPassed_lagged (g : ℕ → ℚ) (gamma0 : ℚ) :
    gammaPassed g gamma0 0 = gamma0 ∧
    (∀ n : ℕ, gammaPassed g gamma0 (n + 1) = g n) ∧
    gammaPassed g defaultGamma 0 = 996 / 1000 := by
  refine ⟨rfl, ?_, rfl⟩
  intro n
  simp [gammaPassed, trainLoopState, trainLoopState_snd]

/-- C5: `update_gamma` is monotone non-decreasing in the step, equals
`gamma0` at step 0, and every returned value is bounded below 1. -/
theorem update_gamma_props (gamma0 : ℚ) (total : ℕ) (h0 : 0 < gamma0)
    (h1 : gamma0 < 1) (ht : 0 < total) :
    (∀ s1 s2 : ℕ, s1 < s2 →
      update_gamma gamma0 total s1 ≤ update_gamma gamma0 total s2) ∧
    update_gamma gamma0 total 0 = gamma0 ∧
    (∀ step : ℕ, update_gamma gamma0 total step < 1) := by
  have hT : (0 : ℚ) < (total : ℚ) := by exact_mod_cast ht
  have hc : (0 : ℚ) < 1 - gamma0 := by linarith
  refine ⟨?_, ?_, ?_⟩
  · intro s1 s2 h12
    have hs : (s1 : ℚ) ≤ (s2 : ℚ) := by exact_mod_cast Nat.le_of_lt h12
    have hd1 : (0 : ℚ) < (total : ℚ) + (s1 : ℚ) := by positivity
    have hd2 : (0 : ℚ) < (total : ℚ) + (s2 : ℚ) := by positivity
    unfold update_gamma
    rw [sub_le_sub_iff_left, div_le_div_iff hd2 hd1]
    nlinarith [mul_pos hc hT]
  · have hT0 : (total : ℚ) ≠ 0 := ne_of_gt hT
    unfold update_gamma
    push_cast
    field_simp
  · intro step
    have hd : (0 : ℚ) < (total : ℚ) + (step : ℚ) := by positivity
    unfold update_gamma
    have : 0 < (1 - gamma0) * (total : ℚ) / ((total : ℚ) + (step : ℚ)) := by
      positivity
    linarith

/-- Witness for C5 at `gamma0 = 0.996`, `total = 10`, steps `1 < 2`. -/
theorem update_gamma_props_witness :
    ((0 : ℚ) < 996 / 1000 ∧ (996 : ℚ) / 1000 < 1 ∧ 0 < 10) ∧
    update_gamma (996 / 1000) 10 1 ≤ update_gamma (996 / 1000) 10 2 ∧
    update_gamma (996 / 1000) 10 0 = 996 / 1000 ∧
    update_gamma (996 / 1000) 10 5 < 1 := by
  refine ⟨⟨by norm_num, by norm_num, by norm_num⟩, ?_, ?_, ?_⟩
  · exact (update_gamma_props (996 / 1000) 10 (by norm_num) (by norm_num)
      (by norm_num)).1 1 2 (by norm_num)
  · exact (update_gamma_props (996 / 1000) 10 (by norm_num) (by norm_num)
      (by norm_num)).2.1
  · exact (update_gamma_props (996 / 1000) 10 (by norm_num) (by norm_num)
      (by norm_num)).2.2 5

/-- Calling `update_params` leaves an equal shadow unchanged, elementwise. -/
theorem update_params_self (gamma : ℚ) (l : List ℚ) :
    update_params gamma l l = l := by
  induction l with
  | nil => rfl
  | cons a l ih =>
      unfold update_params at ih ⊢
      simp only [List.zipWith_cons_cons, ih]
      have : gamma * a + (1 - gamma) * a = a := by ring
      rw [this]

/-- C6: for every `gamma` in `(0,1)`, if the shadow parameters equal the
live parameters then any number of repeated `update_params gamma` calls
with the live parameters held constant leaves the shadow unchanged: the
equal state is a fixed point of
`shadow_p ← gamma * shadow_p + (1 - gamma) * live_p`. -/
theorem ema_fixed_point (gamma : ℚ) (h0 : 0 < gamma) (h1 : gamma < 1)
    (live : List ℚ) (n : ℕ) :
    (fun shadow => update_params gamma shadow live)^[n] live = live := by
  induction n with
  | zero => rfl
  | succ n ih =>
      rw [Function.iterate_succ_apply', ih]
      exact update_params_self gamma live

/-- Witness for C6 at `gamma = 1/2`, parameters `[3, 7]`, two updates. -/
theorem ema_fixed_point_witness :
    ((0 : ℚ) < 1 / 2 ∧ (1 : ℚ) / 2 < 1) ∧
    (fun shadow => update_params (1 / 2) shadow [3, 7])^[2] [3, 7] = [3, 7] := by
  exact ⟨⟨by norm_num, by norm_num⟩,
    ema_fixed_point (1 / 2) (by norm_num) (by norm_num) [3, 7] 2⟩

/-- C8: constructing a schedule with `num_train_timesteps ≤ 0` returns
`ConfigurationError`, and requesting `num_inference_steps` greater than
`num_train_timesteps` returns `ConfigurationError`; the `Except` result
is the error itself — produced at construction/call time with no
recovery path. -/
theorem configuration_errors :
    (∀ (T : ℤ) (s : String), T ≤ 0 →
      mkDDIMScheduler T s = Except.error DiffusionError.configurationError) ∧
    (∀ (cfg : SchedulerConfig) (S : ℕ), cfg.numTrainTimesteps < S →
      checkInference cfg S = Except.error DiffusionError.configurationError) := by
  constructor
  · intro T s hT
    unfold mkDDIMScheduler
    rw [if_pos hT]
  · intro cfg S h
    unfold checkInference
    rw [if_pos h]

/-- Witness for C8: `T = 0` at construction, and
`num_inference_steps = 1001` against the `T = 1000` scheduler of
`generate.py`. -/
theorem configuration_errors_witness :
    ((0 : ℤ) ≤ 0 ∧ genSchedulerConfig.numTrainTimesteps < 1001) ∧
    mkDDIMScheduler 0 "cosine" = Except.error DiffusionError.configurationError ∧
    checkInference genSchedulerConfig 1001 =
      Except.error DiffusionError.configurationError := by
  refine ⟨⟨le_refl 0, by decide⟩, ?_, ?_⟩
  · exact configuration_errors.1 0 "cosine" (le_refl 0)
  · exact configuration_errors.2 genSchedulerConfig 1001 (by decide)

/-- The elementwise formula of `add_noise`, per batch index. -/
theorem add_noise_getElem (ab : ℕ → ℝ) :
    ∀ (x0 noise : List (List ℝ)) (t : List ℕ) (i : ℕ) (img nz : List ℝ)
      (ti : ℕ), x0[i]? = some img → noise[i]? = some nz → t[i]? = some ti →
      (add_noise ab x0 noise t)[i]? =
        some (List.zipWith (fun a b =>
          Real.sqrt (ab ti) * a + Real.sqrt (1 - ab ti) * b) img nz)
  | x :: xs, n :: ns, s :: ts, 0, img, nz, ti, h1, h2, h3 => by
      simp only [List.getElem?_cons_zero, Option.some_inj] at h1 h2 h3
      subst h1; subst h2; subst h3
      simp only [add_noise, List.getElem?_cons_zero]
      rfl
  | x :: xs, n :: ns, s :: ts, i + 1, img, nz, ti, h1, h2, h3 => by
      simp only [List.getElem?_cons_succ] at h1 h2 h3
      simpa [add_noise] using add_noise_getElem ab xs ns ts i img nz ti h1 h2 h3
  | [], _, _, i, img, nz, ti, h1, _, _ => by simp at h1
  | _ :: _, [], _, i, img, nz, ti, _, h2, _ => by simp at h2
  | _ :: _, _ :: _, [], i, img, nz, ti, _, _, h3 => by simp at h3

/-- The shape of `add_noise`'s output matches `x0`, image by image. -/
theorem add_noise_shape (ab : ℕ → ℝ) :
    ∀ (x0 noise : List (List ℝ)) (t : List ℕ),
      List.Forall₂ (fun (a b : List ℝ) => a.length = b.length) x0 noise →
      t.length = x0.length →
      List.Forall₂ (fun (out img : List ℝ) => out.length = img.length)
        (add_noise ab x0 noise t) x0
  | [], noise, t, hshape, ht => by
      cases hshape
      cases t with
      | nil => exact List.Forall₂.nil
      | cons s ts => simp at ht
  | x :: xs, noise, t, hshape, ht => by
      cases hshape with
      | cons h hs =>
          cases t with
          | nil => simp at ht
          | cons s ts =>
              simp only [List.length_cons, Nat.succ_inj] at ht
              refine List.Forall₂.cons ?_ (add_noise_shape ab xs _ ts hs ht)
              simp [addNoiseImg, List.length_zipWith, h]

/-- C1: `add_noise(x0, noise, t)` returns, per batch element `i` and
pixel, `sqrt(alpha_bar_{t_i}) * x0 + sqrt(1 - alpha_bar_{t_i}) * noise`;
when `noise` has the shape of `x0` (and one timestep per batch element)
the output has the shape of `x0`; and the result is a deterministic
function of `(x0, noise, t)` — the embedding is a pure function, so
equal inputs give equal outputs. -/
theorem add_noise_spec (ab : ℕ → ℝ) (x0 noise : List (List ℝ)) (t : List ℕ)
    (hshape : List.Forall₂ (fun (a b : List ℝ) => a.length = b.length) x0 noise)
    (ht : t.length = x0.length) :
    (add_noise ab x0 noise t).length = x0.length ∧
    List.Forall₂ (fun (out img : List ℝ) => out.length = img.length)
      (add_noise ab x0 noise t) x0 ∧
    (∀ (i : ℕ) (img nz : List ℝ) (ti : ℕ),
      x0[i]? = some img → noise[i]? = some nz → t[i]? = some ti →
      (add_noise ab x0 noise t)[i]? =
        some (List.zipWith (fun a b =>
          Real.sqrt (ab ti) * a + Real.sqrt (1 - ab ti) * b) img nz)) ∧
    (∀ (y0 m : List (List ℝ)) (u : List ℕ), y0 = x0 → m = noise → u = t →
      add_noise ab y0 m u = add_noise ab x0 noise t) := by
  have hsh := add_noise_shape ab x0 noise t hshape ht
  refine ⟨hsh.length_eq, hsh, ?_, ?_⟩
  · intro i img nz ti h1 h2 h3
    exact add_noise_getElem ab x0 noise t i img nz ti h1 h2 h3
  · intro y0 m u hy hm hu
    subst hy; subst hm; subst hu
    rfl

/-- Witness for C1: a one-image batch of two pixels at timestep 0. -/
theorem add_noise_spec_witness :
    (List.Forall₂ (fun (a b : List ℝ) => a.length = b.length)
        [[2, 3]] [[5, 6]] ∧ ([0] : List ℕ).length = [[2, 3]].length) ∧
    (add_noise (fun _ => 1) [[2, 3]] [[5, 6]] [0]).length = 1 := by
  have hshape : List.Forall₂ (fun (a b : List ℝ) => a.length = b.length)
      [[2, 3]] [[5, 6]] := List.Forall₂.cons rfl List.Forall₂.nil
  have ht : ([0] : List ℕ).length = [[2, 3]].length := rfl
  exact ⟨⟨hshape, ht⟩,
    (add_noise_spec (fun _ => 1) [[2, 3]] [[5, 6]] [0] hshape ht).1⟩

/-- C2: two `generate` calls with the same predictor, seed and remaining
arguments yield identical outputs, independently of any random draws
made before either call: the ambient generator state `prior` left by
earlier draws is never consulted, because the seeded generator is the
fresh private instance `mkGenerator seed` reconstructed inside each
call. -/
theorem generate_seed_deterministic (ab : ℕ → ℝ) (nu : ℕ → ℕ → ℝ)
    (pred : List ℝ → ℕ → List ℝ) (T S n seed : ℕ) (prior1 prior2 : GenState) :
    generate ab nu pred T S n seed prior1 =
      generate ab nu pred T S n seed prior2 := rfl

/-- The terminal normalization lands in `[0, 1]`. -/
theorem normalizeOut_mem_unit (v : ℝ) : 0 ≤ normalizeOut v ∧ normalizeOut v ≤ 1 := by
  unfold normalizeOut
  have h1 : (-1 : ℝ) ≤ max (-1) (min 1 v) := le_max_left _ _
  have h2 : max (-1) (min 1 v) ≤ 1 :=
    max_le (by norm_num) (min_le_left 1 v)
  constructor <;> linarith

/-- A mid-range pixel: the normalized output of final value `0` is `1/2`. -/
theorem normalizeOut_zero : normalizeOut 0 = 1 / 2 := by
  unfold normalizeOut
  rw [min_eq_right (by norm_num : (0 : ℝ) ≤ 1),
    max_eq_right (by norm_num : (-1 : ℝ) ≤ 0)]
  norm_num

/-- The caller's line-42 conversion of the mid-gray sample value. -/
theorem round_half_pixel : round ((1 / 2 : ℝ) * 255) = (128 : ℤ) := by
  rw [round_eq]
  have h : (1 / 2 : ℝ) * 255 + 1 / 2 = ((128 : ℤ) : ℝ) := by norm_num
  rw [h, Int.floor_intCast]

/-- C7 counterexample: `generate` does not return pixel buffers "already
rescaled from [-1,1] to the [0,255] integer range".  For a run whose
final batch is the single pixel `0` (mid-gray), the returned `sample`
is the normalized float `1/2`; the `[0,255]` integer value `128`
appears only after the caller's own conversion
`(images * 255).round().astype("uint8")` at `generate.py` line 42. -/
theorem generate_sample_not_integer_range :
    (generate (fun _ => 1) (fun _ _ => 0) (identityPredictor []) 1000 1 1 0
        (mkGenerator 7)).sample = [1 / 2] ∧
    images_processed (generate (fun _ => 1) (fun _ _ => 0)
        (identityPredictor []) 1000 1 1 0 (mkGenerator 7)).sample = [128] := by
  have hsample : (generate (fun _ => 1) (fun _ _ => 0) (identityPredictor [])
      1000 1 1 0 (mkGenerator 7)).sample = [1 / 2] := by
    simp [generate, mkGenOutput, genSteps, stepPairs, initNoise, mkGenerator,
      genLoop, normalizeOut_zero]
  refine ⟨hsample, ?_⟩
  rw [hsample]
  simp only [images_processed, List.map_cons, List.map_nil]
  rw [round_half_pixel]

/-- C7 amended: every successful `generate` call returns two arrays —
`sample`, per-image normalized floats in `[0, 1]` (which the caller,
not `generate`, rescales to `[0,255]` integers at `generate.py` line
42), and `samplePt`, a separate normalized float tensor for grid
assembly; the caller's conversion of `sample` then lands in the
`[0, 255]` integer range. -/
theorem generate_output_ranges (ab : ℕ → ℝ) (nu : ℕ → ℕ → ℝ)
    (pred : List ℝ → ℕ → List ℝ) (T S n seed : ℕ) (prior : GenState) :
    (∀ v ∈ (generate ab nu pred T S n seed prior).sample, 0 ≤ v ∧ v ≤ 1) ∧
    (∀ v ∈ (generate ab nu pred T S n seed prior).samplePt, 0 ≤ v ∧ v ≤ 1) ∧
    (∀ z ∈ images_processed (generate ab nu pred T S n seed prior).sample,
      0 ≤ z ∧ z ≤ 255) := by
  have hunit : ∀ v ∈ (generate ab nu pred T S n seed prior).sample,
      0 ≤ v ∧ v ≤ 1 := by
    intro v hv
    simp only [generate, mkGenOutput, List.mem_map] at hv
    obtain ⟨w, _, rfl⟩ := hv
    exact normalizeOut_mem_unit w
  refine ⟨hunit, ?_, ?_⟩
  · intro v hv
    simp only [generate, mkGenOutput, List.mem_map] at hv
    obtain ⟨w, _, rfl⟩ := hv
    exact normalizeOut_mem_unit w
  · intro z hz
    simp only [images_processed, List.mem_map] at hz
    obtain ⟨v, hv, rfl⟩ := hz
    obtain ⟨h0, h1⟩ := hunit v hv
    rw [round_eq]
    constructor
    · exact Int.le_floor.mpr (by push_cast; linarith)
    · have : ⌊v * 255 + 1 / 2⌋ < 256 := Int.floor_lt.mpr (by push_cast; linarith)
      omega

/-- Witness for C7 (amended) at a concrete run whose sample is `[1/2]`. -/
theorem generate_output_ranges_witness :
    ((1 : ℝ) / 2 ∈ (generate (fun _ => 1) (fun _ _ => 0) (identityPredictor [])
        1000 1 1 3 (mkGenerator 0)).sample) ∧
    (0 ≤ (1 : ℝ) / 2 ∧ (1 : ℝ) / 2 ≤ 1) := by
  have hmem : (1 : ℝ) / 2 ∈ (generate (fun _ => 1) (fun _ _ => 0)
      (identityPredictor []) 1000 1 1 3 (mkGenerator 0)).sample := by
    have hs : (generate (fun _ => 1) (fun _ _ => 0) (identityPredictor [])
        1000 1 1 3 (mkGenerator 0)).sample = [1 / 2] := by
      simp [generate, mkGenOutput, genSteps, stepPairs, initNoise, mkGenerator,
        genLoop, normalizeOut_zero]
    rw [hs]
    exact List.mem_singleton.mpr rfl
  exact ⟨hmem, (generate_output_ranges (fun _ => 1) (fun _ _ => 0)
    (identityPredictor []) 1000 1 1 3 (mkGenerator 0)).1 (1 / 2) hmem⟩

/-- Every linear beta is at least `1e-4`. -/
theorem betaLinear_ge (T s : ℕ) (hT : 1 ≤ T) : 1 / 10000 ≤ betaLinear T s := by
  unfold betaLinear
  have h1 : (0 : ℚ) ≤ (T : ℚ) - 1 := by
    have : (1 : ℚ) ≤ (T : ℚ) := by exact_mod_cast hT
    linarith
  have hc : (0 : ℚ) ≤ 2 / 100 - 1 / 10000 := by norm_num
  have h2 : (0 : ℚ) ≤ (2 / 100 - 1 / 10000) * (s : ℚ) / ((T : ℚ) - 1) :=
    div_nonneg (mul_nonneg hc (by positivity)) h1
  linarith

/-- Every linear beta within the schedule range is at most `2e-2`. -/
theorem betaLinear_le (T s : ℕ) (hT : 1 ≤ T) (hs : s ≤ T - 1) :
    betaLinear T s ≤ 1 / 50 := by
  unfold betaLinear
  rcases Nat.lt_or_ge T 2 with h2 | h2
  · have hT1 : T = 1 := by omega
    have hs0 : s = 0 := by omega
    subst hT1; subst hs0
    norm_num
  · have hd : (0 : ℚ) < (T : ℚ) - 1 := by
      have : (2 : ℚ) ≤ (T : ℚ) := by exact_mod_cast h2
      linarith
    have hsq : (s : ℚ) ≤ (T : ℚ) - 1 := by
      have h := (Nat.cast_le (α := ℚ)).mpr hs
      rwa [Nat.cast_sub hT, Nat.cast_one] at h
    have hfrac : (s : ℚ) / ((T : ℚ) - 1) ≤ 1 := by
      rw [div_le_one hd]; exact hsq
    have hc : (0 : ℚ) ≤ 2 / 100 - 1 / 10000 := by norm_num
    have hb : (2 / 100 - 1 / 10000) * (s : ℚ) / ((T : ℚ) - 1) ≤
        2 / 100 - 1 / 10000 := by
      rw [mul_div_assoc]
      calc (2 / 100 - 1 / 10000) * ((s : ℚ) / ((T : ℚ) - 1)) ≤
          (2 / 100 - 1 / 10000) * 1 := mul_le_mul_of_nonneg_left hfrac hc
        _ = 2 / 100 - 1 / 10000 := mul_one _
    linarith

/-- The linear cumulative product stays positive on the schedule range. -/
theorem alphaBarLinear_pos (T t : ℕ) (hT : 1 ≤ T) (ht : t ≤ T - 1) :
    0 < alphaBarLinear T t := by
  unfold alphaBarLinear
  apply Finset.prod_pos
  intro s hsmem
  have hs : s ≤ T - 1 :=
    le_trans (Nat.le_of_lt_succ (Finset.mem_range.mp hsmem)) ht
  have := betaLinear_le T s hT hs
  linarith

/-- The linear `alpha_bar` is strictly decreasing on the schedule range. -/
theorem alphaBarLinear_strict (T t : ℕ) (hT : 1 ≤ T) (ht : t + 1 ≤ T - 1) :
    alphaBarLinear T (t + 1) < alphaBarLinear T t := by
  have hpos := alphaBarLinear_pos T t hT (by omega)
  have hb : 0 < betaLinear T (t + 1) :=
    lt_of_lt_of_le (by norm_num) (betaLinear_ge T (t + 1) hT)
  unfold alphaBarLinear at hpos ⊢
  rw [Finset.prod_range_succ]
  exact mul_lt_of_lt_one_right hpos (by linarith)

/-- The first linear beta is exactly `1e-4` for every `T`. -/
theorem betaLinear_zero (T : ℕ) : betaLinear T 0 = 1 / 10000 := by
  unfold betaLinear
  norm_num

/-- The first linear `alpha_bar` value. -/
theorem alphaBarLinear_zero (T : ℕ) : alphaBarLinear T 0 = 9999 / 10000 := by
  unfold alphaBarLinear
  rw [Finset.prod_range_one, betaLinear_zero]
  norm_num

/-- At the deployed size `T = 1000` the last linear `alpha_bar` is small. -/
theorem alphaBarLinear_tail : alphaBarLinear 1000 999 < 1 / 100 := by
  unfold alphaBarLinear
  rw [Finset.range_eq_Ico,
    ← Finset.prod_Ico_consecutive _ (Nat.zero_le 500)
      (by norm_num : 500 ≤ 999 + 1)]
  have h0a : ∀ s ∈ Finset.Ico 0 500, (0 : ℚ) ≤ 1 - betaLinear 1000 s := by
    intro s hsmem
    have hs : s ≤ 999 := by
      have := (Finset.mem_Ico.mp hsmem).2; omega
    have := betaLinear_le 1000 s (by norm_num) (by omega)
    linarith
  have h0b : ∀ s ∈ Finset.Ico 500 (999 + 1), (0 : ℚ) ≤ 1 - betaLinear 1000 s := by
    intro s hsmem
    have hs : s ≤ 999 := by
      have := (Finset.mem_Ico.mp hsmem).2; omega
    have := betaLinear_le 1000 s (by norm_num) (by omega)
    linarith
  have h1 : ∏ s ∈ Finset.Ico 0 500, (1 - betaLinear 1000 s) ≤ 1 := by
    apply Finset.prod_le_one h0a
    intro s hsmem
    have := betaLinear_ge 1000 s (by norm_num)
    linarith
  have h2 : ∏ s ∈ Finset.Ico 500 (999 + 1), (1 - betaLinear 1000 s) ≤
      (99 / 100 : ℚ) ^ 500 := by
    have hle : ∀ s ∈ Finset.Ico 500 (999 + 1),
        1 - betaLinear 1000 s ≤ 99 / 100 := by
      intro s hsmem
      have hs5 : (500 : ℚ) ≤ (s : ℚ) := by
        exact_mod_cast (Finset.mem_Ico.mp hsmem).1
      unfold betaLinear
      have hmul : (2 / 100 - 1 / 10000) * (500 : ℚ) / (1000 - 1) ≤
          (2 / 100 - 1 / 10000) * (s : ℚ) / (1000 - 1) := by gcongr <;> norm_num
      push_cast
      push_cast at hmul
      nlinarith [hmul]
    calc ∏ s ∈ Finset.Ico 500 (999 + 1), (1 - betaLinear 1000 s) ≤
        ∏ _s ∈ Finset.Ico 500 (999 + 1), (99 / 100 : ℚ) :=
          Finset.prod_le_prod h0b hle
      _ = (99 / 100 : ℚ) ^ 500 := by
          rw [Finset.prod_const, Nat.card_Ico]
  have h2nn : 0 ≤ ∏ s ∈ Finset.Ico 500 (999 + 1), (1 - betaLinear 1000 s) :=
    Finset.prod_nonneg h0b
  calc (∏ s ∈ Finset.Ico 0 500, (1 - betaLinear 1000 s)) *
      ∏ s ∈ Finset.Ico 500 (999 + 1), (1 - betaLinear 1000 s) ≤
      1 * ((99 / 100 : ℚ) ^ 500) := mul_le_mul h1 h2 h2nn zero_le_one
    _ = (99 / 100 : ℚ) ^ 500 := one_mul _
    _ < 1 / 100 := by norm_num

/-- The cosine-schedule angle is positive. -/
theorem cosArg_pos (T t : ℕ) : 0 < cosArg T t := by
  unfold cosArg
  have h0 : (0 : ℝ) ≤ (t : ℝ) / (T : ℝ) := by positivity
  have hpi := Real.pi_pos
  have hnum : (0 : ℝ) < (t : ℝ) / (T : ℝ) + 8 / 1000 := by linarith
  positivity

/-- Within the schedule range the angle stays below `π/2`. -/
theorem cosArg_lt_pi_div_two (T t : ℕ) (h : t < T) : cosArg T t < Real.pi / 2 := by
  unfold cosArg
  have hT : (0 : ℝ) < (T : ℝ) := by
    have : 0 < T := by omega
    exact_mod_cast this
  have hfrac : ((t : ℝ) / (T : ℝ) + 8 / 1000) / (1 + 8 / 1000) < 1 := by
    rw [div_lt_one (by norm_num)]
    have htT : (t : ℝ) / (T : ℝ) < 1 := by
      rw [div_lt_one hT]
      exact_mod_cast h
    linarith
  calc ((t : ℝ) / (T : ℝ) + 8 / 1000) / (1 + 8 / 1000) * (Real.pi / 2) <
      1 * (Real.pi / 2) :=
        mul_lt_mul_of_pos_right hfrac (by positivity)
    _ = Real.pi / 2 := one_mul _

/-- The angle grows strictly with the timestep. -/
theorem cosArg_strictMono (T : ℕ) (hT : 0 < T) {t u : ℕ} (h : t < u) :
    cosArg T t < cosArg T u := by
  unfold cosArg
  have hTR : (0 : ℝ) < (T : ℝ) := by exact_mod_cast hT
  have htu : (t : ℝ) < (u : ℝ) := by exact_mod_cast h
  have hpi := Real.pi_pos
  gcongr

/-- The cosine stays positive within the schedule range. -/
theorem cos_cosArg_pos (T t : ℕ) (h : t < T) : 0 < Real.cos (cosArg T t) := by
  apply Real.cos_pos_of_mem_Ioo
  constructor
  · have := cosArg_pos T t
    have := Real.pi_pos
    linarith
  · exact cosArg_lt_pi_div_two T t h

/-- The squared-cosine profile is positive within the schedule range. -/
theorem cosF_pos (T t : ℕ) (h : t < T) : 0 < cosF T t := by
  unfold cosF
  exact pow_pos (cos_cosArg_pos T t h) 2

/-- The cosine `alpha_bar` starts at exactly 1. -/
theorem alphaBarCosine_zero (T : ℕ) (hT : 0 < T) : alphaBarCosine T 0 = 1 := by
  unfold alphaBarCosine
  exact div_self (ne_of_gt (cosF_pos T 0 hT))

/-- The cosine `alpha_bar` is positive within the schedule range. -/
theorem alphaBarCosine_pos (T t : ℕ) (hT : 0 < T) (h : t < T) :
    0 < alphaBarCosine T t :=
  div_pos (cosF_pos T t h) (cosF_pos T 0 hT)

/-- The squared-cosine profile decreases strictly within the range. -/
theorem cosF_strict (T : ℕ) {t u : ℕ} (hu : u < T) (h : t < u) :
    cosF T u < cosF T t := by
  unfold cosF
  have ht : t < T := lt_trans h hu
  have hc1 : 0 < Real.cos (cosArg T u) := cos_cosArg_pos T u hu
  have harg : cosArg T t < cosArg T u := cosArg_strictMono T (by omega) h
  have hpi := Real.pi_pos
  have hcos : Real.cos (cosArg T u) < Real.cos (cosArg T t) := by
    apply Real.strictAntiOn_cos
    · exact ⟨le_of_lt (cosArg_pos T t),
        by linarith [cosArg_lt_pi_div_two T t ht]⟩
    · exact ⟨le_of_lt (cosArg_pos T u),
        by linarith [cosArg_lt_pi_div_two T u hu]⟩
    · exact harg
  exact pow_lt_pow_left hcos (le_of_lt hc1) (by norm_num)

/-- The cosine `alpha_bar` is strictly decreasing within the range. -/
theorem alphaBarCosine_strict (T t : ℕ) (ht : t + 1 < T) :
    alphaBarCosine T (t + 1) < alphaBarCosine T t := by
  unfold alphaBarCosine
  have h0 : 0 < cosF T 0 := cosF_pos T 0 (by omega)
  have hnum := cosF_strict T (u := t + 1) ht (Nat.lt_succ_self t)
  gcongr

/-- At the deployed size `T = 1000` the last cosine `alpha_bar` is small. -/
theorem alphaBarCosine_tail : alphaBarCosine 1000 999 < 1 / 100 := by
  have harg : cosArg 1000 999 = Real.pi / 2 - Real.pi / 2016 := by
    unfold cosArg
    push_cast
    field_simp
    ring
  have hargz : cosArg 1000 0 = Real.pi / 252 := by
    unfold cosArg
    push_cast
    field_simp
    ring
  have hpi := Real.pi_pos
  have hpi315 : Real.pi < 3.15 := Real.pi_lt_d2
  have hcos999 : Real.cos (cosArg 1000 999) = Real.sin (Real.pi / 2016) := by
    rw [harg, Real.cos_pi_div_two_sub]
  have hsin_lt : Real.sin (Real.pi / 2016) < Real.pi / 2016 :=
    Real.sin_lt (by positivity)
  have hsin_nonneg : 0 ≤ Real.sin (Real.pi / 2016) :=
    Real.sin_nonneg_of_nonneg_of_le_pi (by positivity) (by linarith)
  have hbound : Real.sin (Real.pi / 2016) < 3.15 / 2016 := by
    have : Real.pi / 2016 < 3.15 / 2016 := by linarith
    linarith
  have hnum : cosF 1000 999 < (3.15 / 2016) ^ 2 := by
    unfold cosF
    rw [hcos999]
    exact pow_lt_pow_left hbound hsin_nonneg (by norm_num)
  have hden : (1 / 4 : ℝ) ≤ cosF 1000 0 := by
    unfold cosF
    rw [hargz]
    have h13 : Real.cos (Real.pi / 3) ≤ Real.cos (Real.pi / 252) :=
      Real.cos_le_cos_of_nonneg_of_le_pi (by positivity) (by linarith)
        (by linarith)
    rw [Real.cos_pi_div_three] at h13
    nlinarith [h13]
  unfold alphaBarCosine
  calc cosF 1000 999 / cosF 1000 0 ≤ (3.15 / 2016) ^ 2 / (1 / 4) :=
        div_le_div (by positivity) (le_of_lt hnum) (by norm_num) hden
    _ < 1 / 100 := by norm_num

/-- C3 counterexample: at `T = 1` the last `alpha_bar` value,
`alpha_bar_{T-1} = alpha_bar_0`, equals 1 for the cosine family and
`0.9999` for the linear family — within `1e-3` of 1, hence not
"approximately 0" — so the claim's `alpha_bar_{T-1} ≈ 0` fails for
every reading once quantified over all `T > 0`. -/
theorem alphaBar_last_not_small :
    alphaBar BetaFamily.cosine 1 0 = 1 ∧
    alphaBar BetaFamily.linear 1 0 = 9999 / 10000 := by
  constructor
  · show alphaBarCosine 1 0 = 1
    exact alphaBarCosine_zero 1 (by norm_num)
  · show ((alphaBarLinear 1 0 : ℚ) : ℝ) = 9999 / 10000
    rw [alphaBarLinear_zero]
    norm_num

/-- C3 (amended): for every `T > 0` and both schedule families the
`alpha_bar` sequence is strictly decreasing on `t ∈ [0, T-1]` and
`alpha_bar_0` lies within `1e-3` of 1; `alpha_bar_{T-1} ≈ 0` holds at
the deployed size `T = 1000` (both families are below `1/100` there)
rather than for every `T > 0`. -/
theorem alphaBar_invariants (fam : BetaFamily) (T t : ℕ) (hT : 0 < T)
    (ht : t + 1 < T) :
    alphaBar fam T (t + 1) < alphaBar fam T t ∧
    |alphaBar fam T 0 - 1| ≤ 1 / 1000 ∧
    alphaBar BetaFamily.linear 1000 999 < 1 / 100 ∧
    alphaBar BetaFamily.cosine 1000 999 < 1 / 100 := by
  refine ⟨?_, ?_, ?_, ?_⟩
  · cases fam with
    | linear =>
        show ((alphaBarLinear T (t + 1) : ℚ) : ℝ) < ((alphaBarLinear T t : ℚ) : ℝ)
        exact_mod_cast alphaBarLinear_strict T t (by omega) (by omega)
    | cosine =>
        show alphaBarCosine T (t + 1) < alphaBarCosine T t
        exact alphaBarCosine_strict T t ht
  · cases fam with
    | linear =>
        show |((alphaBarLinear T 0 : ℚ) : ℝ) - 1| ≤ 1 / 1000
        rw [alphaBarLinear_zero, abs_le]
        constructor <;> norm_num
    | cosine =>
        show |alphaBarCosine T 0 - 1| ≤ 1 / 1000
        rw [alphaBarCosine_zero T hT]
        norm_num
  · show ((alphaBarLinear 1000 999 : ℚ) : ℝ) < 1 / 100
    rw [show (1 / 100 : ℝ) = ((1 / 100 : ℚ) : ℝ) by norm_num, Rat.cast_lt]
    exact alphaBarLinear_tail
  · show alphaBarCosine 1000 999 < 1 / 100
    exact alphaBarCosine_tail

/-- Witness for C3 (amended) at the cosine family, `T = 1000`, `t = 0`. -/
theorem alphaBar_invariants_witness :
    ((0 : ℕ) < 1000 ∧ 0 + 1 < 1000) ∧
    (alphaBar BetaFamily.cosine 1000 (0 + 1) < alphaBar BetaFamily.cosine 1000 0 ∧
      |alphaBar BetaFamily.cosine 1000 0 - 1| ≤ 1 / 1000 ∧
      alphaBar BetaFamily.linear 1000 999 < 1 / 100 ∧
      alphaBar BetaFamily.cosine 1000 999 < 1 / 100) :=
  ⟨⟨by norm_num, by norm_num⟩,
    alphaBar_invariants BetaFamily.cosine 1000 0 (by norm_num) (by norm_num)⟩

/-- Composition of two elementwise passes over the same second list. -/
theorem zipWith_zipWith_left (f g : ℝ → ℝ → ℝ) :
    ∀ (as bs : List ℝ), List.zipWith f (List.zipWith g as bs) bs =
      List.zipWith (fun a b => f (g a b) b) as bs
  | [], bs => by simp
  | a :: as, [] => by simp
  | a :: as, b :: bs => by
      simp only [List.zipWith_cons_cons]
      rw [zipWith_zipWith_left f g as bs]

/-- One `eta = 0` DDIM step maps the exactly-noised image at `tc` to the
exactly-noised image at `tp`, when the predictor returns the exact
noise. -/
theorem ddimStepE_on_traj (ab : ℕ → ℝ) (tc tp : ℕ) (x0 e : ℝ)
    (h : 0 < ab tc) :
    ddimStepE ab tc tp (addNoiseElt (ab tc) x0 e) e = addNoiseElt (ab tp) x0 e := by
  unfold ddimStepE addNoiseElt
  have hs : Real.sqrt (ab tc) ≠ 0 := ne_of_gt (Real.sqrt_pos.mpr h)
  field_simp

/-- Walking the whole `eta = 0` loop with the identity predictor keeps
the image exactly on the noising trajectory. -/
theorem genLoop_identity (ab : ℕ → ℝ) (eps x0 : List ℝ) :
    ∀ (l : List (ℕ × ℕ)) (t0 : ℕ), chainOK t0 l = true →
      (∀ p ∈ l, 0 < ab p.1) →
      genLoop ab (identityPredictor eps) l
        (List.zipWith (addNoiseElt (ab t0)) x0 eps) =
      List.zipWith (addNoiseElt (ab (chainEnd t0 l))) x0 eps
  | [], t0, _, _ => by simp [genLoop, chainEnd]
  | (tc, tp) :: rest, t0, hok, hpos => by
      have h1 : tc = t0 ∧ chainOK tp rest = true := by
        simpa [chainOK, Bool.and_eq_true] using hok
      obtain ⟨htc, hrest⟩ := h1
      subst htc
      have hpc : 0 < ab tc := hpos (tc, tp) (List.mem_cons_self _ _)
      have hfun : (fun a b => ddimStepE ab tc tp (addNoiseElt (ab tc) a b) b) =
          addNoiseElt (ab tp) := by
        funext a b
        exact ddimStepE_on_traj ab tc tp a b hpc
      have hpos' : ∀ p ∈ rest, 0 < ab p.1 := by
        intro p hp
        exact hpos p (List.mem_cons_of_mem _ hp)
      calc genLoop ab (identityPredictor eps) ((tc, tp) :: rest)
            (List.zipWith (addNoiseElt (ab tc)) x0 eps) =
          genLoop ab (identityPredictor eps) rest
            (List.zipWith (ddimStepE ab tc tp)
              (List.zipWith (addNoiseElt (ab tc)) x0 eps) eps) := by
            simp [genLoop, identityPredictor]
        _ = genLoop ab (identityPredictor eps) rest
              (List.zipWith (addNoiseElt (ab tp)) x0 eps) := by
            rw [zipWith_zipWith_left, hfun]
        _ = List.zipWith (addNoiseElt (ab (chainEnd tp rest))) x0 eps :=
            genLoop_identity ab eps x0 rest tp hrest hpos'
        _ = List.zipWith (addNoiseElt (ab (chainEnd tc ((tc, tp) :: rest))))
              x0 eps := by
            simp [chainEnd]

/-- At `alpha_bar = 1` the forward corruption is the identity. -/
theorem addNoiseElt_one (x n : ℝ) : addNoiseElt 1 x n = x := by
  unfold addNoiseElt
  rw [Real.sqrt_one, sub_self, Real.sqrt_zero]
  ring

/-- Elementwise identity corruption returns the image. -/
theorem zipWith_addNoiseElt_one (x0 eps : List ℝ)
    (hlen : x0.length = eps.length) :
    List.zipWith (addNoiseElt 1) x0 eps = x0 := by
  induction x0 generalizing eps with
  | nil => simp
  | cons a as ih =>
      cases eps with
      | nil => simp at hlen
      | cons b bs =>
          simp only [List.zipWith_cons_cons, addNoiseElt_one]
          rw [ih bs (by simpa using hlen)]

/-- C4: with the `T = 1000` cosine schedule, corrupting any clean image
`x0` with `add_noise` at the first inference timestep (`τ_0 = 950` of
the 20-step sequence) and then running the `eta = 0` sampler with the
idealized identity predictor (`predict_noise` returns the exact
injected noise) reconstructs `x0` — here exactly, hence within any
small numerical tolerance. -/
theorem cosine_round_trip (x0 eps : List ℝ) (hlen : x0.length = eps.length) :
    add_noise (alphaBar BetaFamily.cosine 1000) [x0] [eps] [950] =
      [addNoiseImg (alphaBar BetaFamily.cosine 1000 950) x0 eps] ∧
    genLoop (alphaBar BetaFamily.cosine 1000) (identityPredictor eps)
      (stepPairs (genSteps 1000 20))
      (addNoiseImg (alphaBar BetaFamily.cosine 1000 950) x0 eps) = x0 := by
  constructor
  · simp [add_noise]
  · have hchain : chainOK 950 (stepPairs (genSteps 1000 20)) = true := by decide
    have hend : chainEnd 950 (stepPairs (genSteps 1000 20)) = 0 := by decide
    have hpos : ∀ p ∈ stepPairs (genSteps 1000 20),
        0 < alphaBar BetaFamily.cosine 1000 p.1 := by
      have hlt : ∀ p ∈ stepPairs (genSteps 1000 20), p.1 < 1000 := by decide
      intro p hp
      show 0 < alphaBarCosine 1000 p.1
      exact alphaBarCosine_pos 1000 p.1 (by norm_num) (hlt p hp)
    have h := genLoop_identity (alphaBar BetaFamily.cosine 1000) eps x0
      (stepPairs (genSteps 1000 20)) 950 hchain hpos
    have hone : alphaBar BetaFamily.cosine 1000 0 = 1 := by
      show alphaBarCosine 1000 0 = 1
      exact alphaBarCosine_zero 1000 (by norm_num)
    unfold addNoiseImg
    rw [h, hend, hone]
    exact zipWith_addNoiseElt_one x0 eps hlen

/-- Witness for C4 on a concrete two-pixel image and noise. -/
theorem cosine_round_trip_witness :
    ([(1 : ℝ), -1].length = [(0 : ℝ), 2].length) ∧
    genLoop (alphaBar BetaFamily.cosine 1000) (identityPredictor [(0 : ℝ), 2])
      (stepPairs (genSteps 1000 20))
      (addNoiseImg (alphaBar BetaFamily.cosine 1000 950) [(1 : ℝ), -1]
        [(0 : ℝ), 2]) = [(1 : ℝ), -1] :=
  ⟨rfl, (cosine_round_trip [(1 : ℝ), -1] [(0 : ℝ), 2] rfl).2⟩
